import Mathlib

/-!
Verification of `lockfree::priority_queue` (src/priority_queue.hpp).

A shallow embedding of the lock-free priority queue. Concurrency is out of
reach of a shallow embedding, so the operations are embedded with their
sequential (single-thread, uncontended) semantics: every compare-exchange
whose expected value was just read succeeds, and reference counting is
tracked only where a claim speaks about it.

Two models are built from the source:

* a list model of the queue contents: the nodes strictly between the `head`
  and `tail` sentinels, in list order, each carrying its key, payload and
  value-mark bit (the low bit of `value`, set when a popper has claimed the
  payload).  `insert`, `pop()` and `pop(K)` are translated against it.
* a heap model with explicit node identities and `next` fields, used for
  `help_delete` and `read_next`, whose effects are on the pointer structure
  itself.

Pointers are modelled as `Nat` addresses (`uintptr_t`, 64 bits); payloads as
`Nat` identifiers, with `0` playing the role of `nullptr` where needed.
-/

namespace LockfreePQ

/-! ## Tagged-pointer primitives (src/priority_queue.hpp lines 32-44)

`uintptr_t` is 64 bits wide; a pointer value is a `Nat` below `2 ^ 64`.
-/

/-- Width of `uintptr_t` on the supported platforms. -/
def ptrWidth : Nat := 64

/-- Source `get_marked( i )`: `reinterpret_cast<uintptr_t>(i) | 1`. -/
def get_marked (p : Nat) : Nat := p ||| 1

/-- Source `get_unmarked( i )`:
`reinterpret_cast<uintptr_t>(i) & (numeric_limits<uintptr_t>::max() - 1)`. -/
def get_unmarked (p : Nat) : Nat := p &&& (2 ^ ptrWidth - 1 - 1)

/-- Source `is_marked( i )`: `reinterpret_cast<uintptr_t>(i) & 1`. -/
def is_marked (p : Nat) : Bool := p &&& 1 == 1

/-! ## List model of the queue contents

An `Entry` is a non-sentinel node of the sorted list: its key, payload
pointer, and the low bit of its `value` field (`claimed` — set by the
value CAS in `pop`).  The queue state is the list of entries from `head`
to `tail`, sentinels excluded; the `head` sentinel carries the maximal key
and the `tail` sentinel the minimal key of the key domain `[lo, hi]`.
-/

structure Entry where
  key : Int
  value : Nat
  claimed : Bool
  deriving DecidableEq, Repr

/-- The empty queue: only the two sentinels are linked. -/
def emptyQ : List Entry := []

/-- Source `insert( value, key )` (lines 140-158): walk from the node after
`head` while `!( key > node->key ) && node != tail`, then link the new node
between `prev` and `node`.  The new node's value mark is clear. -/
def insertList (k : Int) (v : Nat) : List Entry → List Entry
  | [] => [⟨k, v, false⟩]
  | e :: rest =>
      if k > e.key then ⟨k, v, false⟩ :: e :: rest
      else e :: insertList k v rest

/-- One drain step of `pop()` (lines 178-196): read the node after `head`;
at `tail` return null; otherwise CAS the value from its unmarked reading to
its marked form.  Sequentially the CAS fails exactly when the value is
already marked (`claimed`), in which case `help_delete` unlinks the node
and the loop retries from `head`.  Returns the claimed entry (its value is
what `pop` returns) and the new list. -/
def popStep : List Entry → Option Entry × List Entry
  | [] => (none, [])
  | e :: rest =>
      if e.claimed then popStep rest
      else (some e, ⟨e.key, e.value, true⟩ :: rest)

/-- Source `pop( K key )` (lines 160-177): identical to `pop()` except that
the first candidate is also abandoned — with no mutation — when
`key > ret_node->key`. -/
def popT (t : Int) : List Entry → Option Entry × List Entry
  | [] => (none, [])
  | e :: rest =>
      if t > e.key then (none, e :: rest)
      else if e.claimed then popT t rest
      else (some e, ⟨e.key, e.value, true⟩ :: rest)

/-- Drain the queue with `pop()` until it reports empty (or fuel runs out),
collecting the claimed entries in pop order. -/
def drain : Nat → List Entry → List Entry
  | 0, _ => []
  | fuel + 1, q =>
      match popStep q with
      | (none, _) => []
      | (some e, q') => e :: drain fuel q'

/-- Fold a program of `insert( value, key )` calls over the empty queue. -/
def insertAll (prog : List (Int × Nat)) : List Entry :=
  prog.foldl (fun q p => insertList p.1 p.2 q) emptyQ

/-- The list invariant on the non-sentinel entries: keys weakly decreasing
in list order. -/
def sortedQ (q : List Entry) : Prop :=
  List.Pairwise (fun a b => b.key ≤ a.key) q

/-- States reachable from the empty queue by `insert`, `pop()` and
`pop(K)`, with every inserted key inside the domain `[lo, hi]` spanned by
the sentinel keys (a key outside it is undefined behaviour per the spec). -/
inductive ReachB (lo hi : Int) : List Entry → Prop
  | init : ReachB lo hi emptyQ
  | insert {q} (k : Int) (v : Nat) : lo ≤ k → k ≤ hi → ReachB lo hi q →
      ReachB lo hi (insertList k v q)
  | pop {q} : ReachB lo hi q → ReachB lo hi (popStep q).2
  | popThreshold {q} (t : Int) : ReachB lo hi q → ReachB lo hi (popT t q).2

/-- The key sequence along the whole list, `head` and `tail` sentinels
included: `hi` is the `head` key, `lo` the `tail` key. -/
def chainKeys (lo hi : Int) (q : List Entry) : List Int :=
  hi :: q.map Entry.key ++ [lo]

/-! ## Heap model for `help_delete` and `read_next`

These two routines act on the pointer structure itself, so they are
embedded over an explicit heap: node identities are `Nat` addresses and
each node exposes the fields `help_delete` touches — `key` and the
`next` word, split into its pointer part (`next`, `none` for null) and
its low tag bit (`nextMarked`).  The queue's `head` member always holds
the node `headId`; the `tail` member is `tailId`.

Sequential semantics: a compare-exchange whose expected value was read in
the same uninterrupted run succeeds; reference-count bookkeeping
(`safe_read` increments, `release` decrements) has no effect on the
fields modelled here and is dropped. -/

structure HNode where
  key : Int
  next : Option Nat
  nextMarked : Bool
  deriving DecidableEq, Repr

/-- The node heap: contents of every node address. -/
def Heap : Type := Nat → HNode

/-- Address of the `head` sentinel node. -/
def headId : Nat := 0

/-- Address of the `tail` sentinel node. -/
def tailId : Nat := 1

/-- Overwrite the node at address `i`. -/
def setNode (h : Heap) (i : Nat) (x : HNode) : Heap :=
  fun j => if j = i then x else h j

/-- Source `safe_read( node->next )` (lines 50-59), reference count
dropped: null when the stored pointer is null or carries the deletion
mark, otherwise the stored successor. -/
def readNextSimple (h : Heap) (i : Nat) : Option Nat :=
  if (h i).nextMarked then none else (h i).next

/-- The inner walk of `help_delete` (line 112):
`while ( node_tmp != node && node_tmp != tail && !( node->key > node_tmp->key ) )`
advancing `prev ← node_tmp`, `node_tmp ← read_next( prev )`.  The walk
only ever crosses nodes whose links are unmarked, where `read_next`
reduces to `safe_read( prev->next )`; `fuel` bounds the number of steps. -/
def hdWalk (h : Heap) (node prev tmp : Nat) : Nat → Nat × Nat
  | 0 => (prev, tmp)
  | fuel + 1 =>
      if tmp ≠ node ∧ tmp ≠ tailId ∧ ¬((h node).key > (h tmp).key) then
        match readNextSimple h tmp with
        | some nxt => hdWalk h node tmp nxt fuel
        | none => (prev, tmp)
      else (prev, tmp)

/-- Source `help_delete( node )` (lines 99-123).  Returns the new heap,
the returned predecessor node, and the `assigned` flag (whether this
call's own `prev->next` compare-exchange performed the physical unlink).

Step by step: install the deletion mark on `node->next` (lines 102-104);
read the unmarked successor, returning `safe_read( head )` if it is null
(lines 105-106); walk from `head` for the predecessor (lines 107-118;
sequentially one pass of the outer loop, and the compare-exchange
succeeds whenever the walk ended with `node_tmp == node` because
`node_tmp` was just read from `prev->next` unmarked); then
unconditionally overwrite `node->next` with `reinterpret_cast<Node*>(1)`
— null pointer, mark bit set (line 119). -/
def help_delete (h : Heap) (node : Nat) (fuel : Nat) : Heap × Nat × Bool :=
  let w := h node
  let h1 := setNode h node { w with nextMarked := true }
  match w.next with
  | none => (h1, headId, false)
  | some succ =>
      match readNextSimple h1 headId with
      | none => (h1, headId, false)
      | some t0 =>
          let pt := hdWalk h1 node headId t0 fuel
          if pt.2 = node then
            let h2 := setNode h1 pt.1 { h1 pt.1 with next := some succ }
            let h3 := setNode h2 node ⟨w.key, none, true⟩
            (h3, pt.1, true)
          else
            let h3 := setNode h1 node ⟨w.key, none, true⟩
            (h3, pt.1, false)

/-- Source `read_next( node )` (lines 125-134): `safe_read( node->next )`;
while that yields null, replace `node` by `help_delete( node )` and
retry.  `fuel` bounds the retries; `none` is only ever produced by fuel
exhaustion, never by the code's own exit paths. -/
def read_next (h : Heap) (i : Nat) : Nat → Heap × Option Nat
  | 0 => (h, none)
  | fuel + 1 =>
      match readNextSimple h i with
      | some nxt => (h, some nxt)
      | none =>
          let r := help_delete h i fuel
          read_next r.1 r.2.1 fuel

/-- Consecutive `next` links hold along the address list `xs`: each
element's `next` field points at the following element (the mark bit is
not consulted — this is bare reachability). -/
def links (h : Heap) : List Nat → Bool
  | [] => true
  | [_] => true
  | i :: j :: rest => ((h i).next == some j) && links h (j :: rest)

/-- The `tail` sentinel is reachable from node `i` by following `next`
pointers (marks ignored), within `fuel` steps. -/
def reachesTail (h : Heap) (i : Nat) : Nat → Bool
  | 0 => i == tailId
  | fuel + 1 =>
      i == tailId ||
        match (h i).next with
        | some j => reachesTail h j fuel
        | none => false

/-- A concrete heap: the list holds only the sentinels (`head → tail`),
and node `2` is detached — unmarked, still pointing at `tail` — as after
another helper's completed unlink. -/
def detachedHeap : Heap := fun i =>
  if i = headId then ⟨100, some tailId, false⟩
  else if i = tailId then ⟨-100, none, false⟩
  else ⟨5, some tailId, false⟩

/-- A concrete heap: the list is `head → 2 → tail` and node `2` carries
the deletion mark on its link. -/
def markedChainHeap : Heap := fun i =>
  if i = headId then ⟨100, some 2, false⟩
  else if i = tailId then ⟨-100, none, false⟩
  else ⟨5, some tailId, true⟩

/-! ## Free list, node acquisition, `reserve` -/

/-- A node as the free list sees it: `key`, `value` pointer and the
reference count. -/
structure FNode where
  key : Int
  value : Nat
  counter : Nat
  deriving DecidableEq, Repr

/-- Source `get_new_node( value, key )` (lines 84-98), sequentially.  With
an empty free list, `safe_read( free_list )` is null and a fresh
`new Node( key, value )` is returned — its constructor sets
`counter( 1 )`.  Otherwise `safe_read` raises the head free node's count
by one, the detaching compare-exchange succeeds, and `counter += 1`,
`key` and `value` assignments follow.  Returns the node and the rest of
the free list. -/
def get_new_node (fl : List FNode) (v : Nat) (k : Int) : FNode × List FNode :=
  match fl with
  | [] => (⟨k, v, 1⟩, [])
  | f :: rest => (⟨k, v, f.counter + 1 + 1⟩, rest)

/-- Source `reserve( size )` (lines 198-203).  The loop
`for ( std::size_t i; i < size; ++i ) release( new Node( ) )` declares
`i` with no initializer, so the loop starts from whatever indeterminate
value `i0` the storage happens to hold; the model makes `i0` an explicit
parameter.  Each iteration drops a fresh node's count from 1 to 0, whose
`release` then reclaims it onto the front of the free list, so the
number of nodes pushed equals the number of iterations, `size - i0`
(zero when `i0 ≥ size`). -/
def reserve (i0 size : Nat) (fl : List Unit) : List Unit :=
  List.replicate (size - i0) () ++ fl

/-! ## Lemmas about the list model -/

lemma mem_insertList {k : Int} {v : Nat} {q : List Entry} {b : Entry}
    (hb : b ∈ insertList k v q) : b = ⟨k, v, false⟩ ∨ b ∈ q := by
  induction q with
  | nil => simpa [insertList] using hb
  | cons e rest ih =>
    simp only [insertList] at hb
    split at hb
    · rcases List.mem_cons.mp hb with h | h
      · exact Or.inl h
      · exact Or.inr h
    · rcases List.mem_cons.mp hb with h | h
      · exact Or.inr (by simp [h])
      · rcases ih h with h2 | h2
        · exact Or.inl h2
        · exact Or.inr (by simp [h2])

lemma insertList_sorted {k : Int} {v : Nat} {q : List Entry}
    (hq : sortedQ q) : sortedQ (insertList k v q) := by
  induction q with
  | nil => simp [insertList, sortedQ]
  | cons e rest ih =>
    rw [sortedQ, List.pairwise_cons] at hq
    obtain ⟨he, hrest⟩ := hq
    by_cases hk : k > e.key
    · simp only [insertList, if_pos hk]
      rw [sortedQ, List.pairwise_cons]
      refine ⟨fun b hb => ?_, List.pairwise_cons.mpr ⟨he, hrest⟩⟩
      rcases List.mem_cons.mp hb with h | h
      · subst h; exact le_of_lt hk
      · exact le_trans (he b h) (le_of_lt hk)
    · simp only [insertList, if_neg hk]
      rw [sortedQ, List.pairwise_cons]
      refine ⟨fun b hb => ?_, ih hrest⟩
      rcases mem_insertList hb with h | h
      · subst h; exact not_lt.mp hk
      · exact he b h

lemma popStep_snd_sorted {q : List Entry} (hq : sortedQ q) :
    sortedQ (popStep q).2 := by
  induction q with
  | nil => simpa [popStep] using hq
  | cons e rest ih =>
    rw [sortedQ, List.pairwise_cons] at hq
    obtain ⟨he, hrest⟩ := hq
    by_cases hc : e.claimed = true
    · simpa [popStep, hc] using ih hrest
    · simp only [popStep, if_neg hc]
      rw [sortedQ, List.pairwise_cons]
      exact ⟨fun b hb => he b hb, hrest⟩

lemma popStep_mem_fst {q : List Entry} {e : Entry} {q' : List Entry}
    (h : popStep q = (some e, q')) : e ∈ q := by
  induction q with
  | nil => simp [popStep] at h
  | cons a rest ih =>
    by_cases hc : a.claimed = true
    · simp only [popStep, if_pos hc] at h
      exact List.mem_cons_of_mem a (ih h)
    · simp only [popStep, if_neg hc, Prod.mk.injEq, Option.some.injEq] at h
      exact h.1 ▸ List.mem_cons_self a rest

lemma popStep_mem_snd {q : List Entry} {b : Entry}
    (hb : b ∈ (popStep q).2) : ∃ a ∈ q, b.key = a.key := by
  induction q with
  | nil => simp [popStep] at hb
  | cons e rest ih =>
    by_cases hc : e.claimed = true
    · simp only [popStep, if_pos hc] at hb
      obtain ⟨a, ha, hk⟩ := ih hb
      exact ⟨a, List.mem_cons_of_mem e ha, hk⟩
    · simp only [popStep, if_neg hc] at hb
      rcases List.mem_cons.mp hb with h | h
      · exact ⟨e, List.mem_cons_self e rest, by simp [h]⟩
      · exact ⟨b, List.mem_cons_of_mem e h, rfl⟩

lemma popStep_keys_le {q : List Entry} {e : Entry} {q' : List Entry}
    (hq : sortedQ q) (h : popStep q = (some e, q')) :
    ∀ b ∈ q', b.key ≤ e.key := by
  induction q with
  | nil => simp [popStep] at h
  | cons a rest ih =>
    rw [sortedQ, List.pairwise_cons] at hq
    obtain ⟨ha, hrest⟩ := hq
    by_cases hc : a.claimed = true
    · simp only [popStep, if_pos hc] at h
      exact ih hrest h
    · simp only [popStep, if_neg hc, Prod.mk.injEq, Option.some.injEq] at h
      obtain ⟨h1, h2⟩ := h
      subst h1
      intro b hb
      rw [← h2] at hb
      rcases List.mem_cons.mp hb with hbe | hbr
      · subst hbe; exact le_refl _
      · exact ha b hbr

lemma drain_mem {fuel : Nat} {q : List Entry} {b : Entry}
    (hb : b ∈ drain fuel q) : ∃ a ∈ q, b.key = a.key := by
  induction fuel generalizing q with
  | zero => simp [drain] at hb
  | succ fuel ih =>
    rw [drain] at hb
    rcases hp : popStep q with ⟨oe, q'⟩
    rw [hp] at hb
    cases oe with
    | none => simp at hb
    | some e =>
      rcases List.mem_cons.mp hb with h | h
      · exact ⟨e, popStep_mem_fst hp, by simp [h]⟩
      · obtain ⟨a', ha', hk'⟩ := ih h
        have ha2 : a' ∈ (popStep q).2 := by rw [hp]; exact ha'
        obtain ⟨a, ha, hk⟩ := popStep_mem_snd ha2
        exact ⟨a, ha, hk'.trans hk⟩

lemma drain_sorted {fuel : Nat} {q : List Entry} (hq : sortedQ q) :
    List.Pairwise (fun a b : Entry => b.key ≤ a.key) (drain fuel q) := by
  induction fuel generalizing q with
  | zero => simp [drain]
  | succ fuel ih =>
    rw [drain]
    rcases hp : popStep q with ⟨oe, q'⟩
    cases oe with
    | none => simp
    | some e =>
      rw [List.pairwise_cons]
      constructor
      · intro b hb
        obtain ⟨a, ha, hk⟩ := drain_mem hb
        exact hk ▸ popStep_keys_le hq hp a ha
      · apply ih
        have hs := popStep_snd_sorted hq
        rw [hp] at hs
        exact hs

lemma foldl_insert_sorted (prog : List (Int × Nat)) :
    ∀ q, sortedQ q → sortedQ (prog.foldl (fun q p => insertList p.1 p.2 q) q) := by
  induction prog with
  | nil => intro q hq; simpa using hq
  | cons p rest ih => intro q hq; exact ih _ (insertList_sorted hq)

lemma insertAll_sorted (prog : List (Int × Nat)) : sortedQ (insertAll prog) :=
  foldl_insert_sorted prog emptyQ (by simp [sortedQ, emptyQ])

lemma popT_none_iff_aux (t : Int) : ∀ q : List Entry, sortedQ q →
    ((popT t q).1 = none ↔ ∀ e ∈ q, e.claimed = false → e.key < t) := by
  intro q
  induction q with
  | nil => intro _; simp [popT]
  | cons e rest ih =>
    intro hs
    rw [sortedQ, List.pairwise_cons] at hs
    obtain ⟨he, hrest⟩ := hs
    by_cases ht : t > e.key
    · simp only [popT, if_pos ht]
      constructor
      · intro _ b hb _
        rcases List.mem_cons.mp hb with h | h
        · subst h; exact ht
        · exact lt_of_le_of_lt (he b h) ht
      · intro _; trivial
    · by_cases hc : e.claimed = true
      · simp only [popT, if_neg ht, if_pos hc]
        rw [ih hrest]
        constructor
        · intro h b hb hbc
          rcases List.mem_cons.mp hb with hbe | hbr
          · subst hbe; rw [hbc] at hc; simp at hc
          · exact h b hbr hbc
        · intro h b hb hbc
          exact h b (List.mem_cons_of_mem e hb) hbc
      · simp only [popT, if_neg ht, if_neg hc]
        constructor
        · intro h; simp at h
        · intro h
          have h1 : e.key < t :=
            h e (List.mem_cons_self e rest) (by simpa using hc)
          exact absurd h1 ht

/-! ## Lemmas about the heap model and the tagged-pointer primitives -/

lemma setNode_same (h : Heap) (i : Nat) (x : HNode) : setNode h i x i = x := by
  simp [setNode]

lemma setNode_other (h : Heap) {i j : Nat} (x : HNode) (hij : j ≠ i) :
    setNode h i x j = h j := by
  simp [setNode, hij]

lemma hdWalk_inv (h : Heap) (n : Nat) :
    ∀ (fuel : Nat) (prev tmp : Nat), prev ≠ n → readNextSimple h prev = some tmp →
      (hdWalk h n prev tmp fuel).1 ≠ n ∧
      readNextSimple h (hdWalk h n prev tmp fuel).1 = some (hdWalk h n prev tmp fuel).2 := by
  intro fuel
  induction fuel with
  | zero =>
    intro prev tmp hp hr
    exact ⟨hp, by simpa [hdWalk] using hr⟩
  | succ fuel ih =>
    intro prev tmp hp hr
    rw [hdWalk]
    split
    case isTrue hcond =>
      rcases hnx : readNextSimple h tmp with _ | nxt
      · simp only [hnx]
        exact ⟨hp, hr⟩
      · simp only [hnx]
        exact ih tmp nxt hcond.1 hnx
    case isFalse => exact ⟨hp, hr⟩

lemma help_delete_prev_readable (h : Heap) (n c : Nat) (fuel : Nat)
    (hm : (h headId).nextMarked = false) (hc : (h headId).next = some c)
    (hne : n ≠ headId) :
    ∃ x, readNextSimple (help_delete h n fuel).1 (help_delete h n fuel).2.1 = some x := by
  rcases hwn : (h n).next with _ | succ
  · refine ⟨c, ?_⟩
    simp only [help_delete, hwn, readNextSimple]
    rw [setNode_other _ _ (Ne.symm hne), hm, hc]
    simp
  · have hrh : readNextSimple (setNode h n ⟨(h n).key, some succ, true⟩) headId = some c := by
      rw [readNextSimple, setNode_other _ _ (Ne.symm hne), hm, hc]
      simp
    simp only [help_delete, hwn, hrh]
    set h1 := setNode h n ⟨(h n).key, some succ, true⟩ with hh1def
    set pt := hdWalk h1 n headId c fuel with hptdef
    obtain ⟨hpne, hpread⟩ := hdWalk_inv h1 n fuel headId c (Ne.symm hne) hrh
    rw [← hptdef] at hpne hpread
    have hmk : (h1 pt.1).nextMarked = false := by
      rw [readNextSimple] at hpread
      by_cases hb : (h1 pt.1).nextMarked
      · rw [if_pos hb] at hpread; cases hpread
      · simpa using hb
    by_cases hteq : pt.2 = n
    · rw [if_pos hteq]
      refine ⟨succ, ?_⟩
      rw [readNextSimple]
      dsimp only
      rw [setNode_other _ _ hpne, setNode_same]
      simp [hmk]
    · rw [if_neg hteq]
      refine ⟨pt.2, ?_⟩
      rw [readNextSimple]
      dsimp only
      rw [setNode_other _ _ hpne]
      rw [readNextSimple] at hpread
      exact hpread

lemma mask_testBit_zero : (2 ^ ptrWidth - 1 - 1).testBit 0 = false := by
  rw [Nat.testBit_zero]
  decide

lemma mask_testBit_succ (j : Nat) :
    (2 ^ ptrWidth - 1 - 1).testBit (j + 1) = decide (j < 63) := by
  rw [show (2 ^ ptrWidth - 1 - 1 : Nat) = 2 * (2 ^ 63 - 1) by norm_num [ptrWidth]]
  rw [Nat.testBit_succ, Nat.mul_div_cancel_left _ (by norm_num : (0:Nat) < 2),
    Nat.testBit_two_pow_sub_one]

lemma links_tail (h : Heap) (a : Nat) (xs : List Nat)
    (hl : links h (a :: xs) = true) : links h xs = true := by
  cases xs with
  | nil => rfl
  | cons b t =>
    simp only [links, Bool.and_eq_true] at hl
    exact hl.2

lemma links_head (h : Heap) (a b : Nat) (t : List Nat)
    (hl : links h (a :: b :: t) = true) : (h a).next = some b := by
  simp only [links, Bool.and_eq_true, beq_iff_eq] at hl
  exact hl.1

lemma links_cons₂ (h : Heap) (a b : Nat) (t : List Nat) :
    links h (a :: b :: t) = (((h a).next == some b) && links h (b :: t)) := rfl

lemma links_append (h : Heap) (i : Nat) :
    ∀ (xs ys : List Nat),
      links h (xs ++ i :: ys) = (links h (xs ++ [i]) && links h (i :: ys)) := by
  intro xs
  induction xs with
  | nil =>
    intro ys
    simp [links]
  | cons a xs ih =>
    intro ys
    cases xs with
    | nil => simp [links, Bool.and_assoc]
    | cons b xs2 =>
      simp only [List.cons_append]
      rw [links_cons₂, links_cons₂]
      have ihy := ih ys
      simp only [List.cons_append] at ihy
      rw [ihy, Bool.and_assoc]

lemma links_congr (h h2 : Heap) :
    ∀ (xs : List Nat), (∀ i ∈ xs, (h2 i).next = (h i).next) →
      links h xs = true → links h2 xs = true := by
  intro xs
  induction xs with
  | nil => intro _ _; rfl
  | cons a xs ih =>
    intro hag hl
    cases xs with
    | nil => rfl
    | cons b xs2 =>
      rw [links_cons₂, Bool.and_eq_true, beq_iff_eq] at hl ⊢
      refine ⟨?_, ih (fun i hi => hag i (List.mem_cons_of_mem a hi)) hl.2⟩
      rw [hag a (List.mem_cons_self a _)]
      exact hl.1

lemma getLastD_cons_mem (b : Nat) (xs : List Nat) (a : Nat) :
    (b :: xs).getLastD a ∈ b :: xs := by
  induction xs generalizing b with
  | nil => simp [List.getLastD]
  | cons c t ih =>
    rw [List.getLastD_cons]
    exact List.mem_cons_of_mem b (ih c)

lemma links_last (h : Heap) (n : Nat) :
    ∀ (xs : List Nat) (a : Nat),
      links h (a :: xs ++ [n]) = true → (h (xs.getLastD a)).next = some n := by
  intro xs
  induction xs with
  | nil =>
    intro a hl
    simpa using links_head h a n [] hl
  | cons b xs2 ih =>
    intro a hl
    rw [List.getLastD_cons]
    exact ih b (links_tail h a _ hl)

lemma links_retarget (h h2 : Heap) (n s : Nat) :
    ∀ (xs : List Nat) (a : Nat),
      links h (a :: xs ++ [n]) = true →
      (a :: xs).Nodup →
      (∀ i ∈ a :: xs, i ≠ xs.getLastD a → (h2 i).next = (h i).next) →
      (h2 (xs.getLastD a)).next = some s →
      links h2 (a :: xs ++ [s]) = true := by
  intro xs
  induction xs with
  | nil =>
    intro a _ _ _ hlast
    simp only [List.getLastD] at hlast
    show (((h2 a).next == some s) && links h2 [s]) = true
    simp [links, hlast]
  | cons b xs2 ih =>
    intro a hl hnd hag hlast
    have halast : a ≠ (b :: xs2).getLastD a := by
      intro he
      have hmem := getLastD_cons_mem b xs2 a
      rw [← he] at hmem
      exact (List.nodup_cons.mp hnd).1 hmem
    simp only [List.cons_append] at hl ⊢
    rw [links_cons₂, Bool.and_eq_true, beq_iff_eq] at hl ⊢
    refine ⟨?_, ?_⟩
    · rw [hag a (List.mem_cons_self a _) halast]
      exact hl.1
    · rw [List.getLastD_cons] at hlast
      refine ih b hl.2 (List.nodup_cons.mp hnd).2
        (fun i hi hine => hag i (List.mem_cons_of_mem a hi) ?_) hlast
      rw [List.getLastD_cons]
      exact hine

lemma hdWalk_at_node (h : Heap) (n prev : Nat) (fuel : Nat) (hf : 1 ≤ fuel) :
    hdWalk h n prev n fuel = (prev, n) := by
  obtain ⟨f, rfl⟩ : ∃ f, fuel = f + 1 := ⟨fuel - 1, by omega⟩
  rw [hdWalk]
  simp

lemma hdWalk_finds (h : Heap) (n : Nat) :
    ∀ (xs : List Nat) (prev tmp fuel : Nat),
      links h (tmp :: xs ++ [n]) = true →
      (∀ i ∈ tmp :: xs, (h i).nextMarked = false) →
      (∀ i ∈ tmp :: xs, i ≠ n) →
      (∀ i ∈ tmp :: xs, i ≠ tailId) →
      (∀ i ∈ tmp :: xs, (h n).key ≤ (h i).key) →
      xs.length + 1 ≤ fuel →
      hdWalk h n prev tmp fuel = (xs.getLastD tmp, n) := by
  intro xs
  induction xs with
  | nil =>
    intro prev tmp fuel hl hmk hne hnt hk hf
    obtain ⟨f, rfl⟩ : ∃ f, fuel = f + 1 := ⟨fuel - 1, by omega⟩
    rw [hdWalk]
    have h1 : tmp ≠ n := hne tmp (List.mem_cons_self _ _)
    have h2 : tmp ≠ tailId := hnt tmp (List.mem_cons_self _ _)
    have h3 : ¬((h n).key > (h tmp).key) :=
      not_lt.mpr (hk tmp (List.mem_cons_self _ _))
    rw [if_pos ⟨h1, h2, h3⟩]
    have hnext : (h tmp).next = some n := links_head h tmp n [] hl
    have hrs : readNextSimple h tmp = some n := by
      rw [readNextSimple, hmk tmp (List.mem_cons_self _ _), hnext]
      rfl
    rw [hrs]
    simp only [List.getLastD]
    cases f with
    | zero => rfl
    | succ g =>
      rw [hdWalk]
      simp
  | cons b xs2 ih =>
    intro prev tmp fuel hl hmk hne hnt hk hf
    obtain ⟨f, rfl⟩ : ∃ f, fuel = f + 1 := ⟨fuel - 1, by omega⟩
    rw [hdWalk]
    have h1 : tmp ≠ n := hne tmp (List.mem_cons_self _ _)
    have h2 : tmp ≠ tailId := hnt tmp (List.mem_cons_self _ _)
    have h3 : ¬((h n).key > (h tmp).key) :=
      not_lt.mpr (hk tmp (List.mem_cons_self _ _))
    rw [if_pos ⟨h1, h2, h3⟩]
    have hnext : (h tmp).next = some b := by
      have := hl
      simp only [List.cons_append] at this
      exact links_head h tmp b _ this
    have hrs : readNextSimple h tmp = some b := by
      rw [readNextSimple, hmk tmp (List.mem_cons_self _ _), hnext]
      rfl
    rw [hrs]
    rw [List.getLastD_cons]
    have hl2 : links h (b :: xs2 ++ [n]) = true := by
      have := hl
      simp only [List.cons_append] at this
      exact links_tail h tmp _ this
    show hdWalk h n tmp b f = (xs2.getLastD b, n)
    exact ih tmp b f hl2
      (fun i hi => hmk i (List.mem_cons_of_mem tmp hi))
      (fun i hi => hne i (List.mem_cons_of_mem tmp hi))
      (fun i hi => hnt i (List.mem_cons_of_mem tmp hi))
      (fun i hi => hk i (List.mem_cons_of_mem tmp hi))
      (by simp only [List.length_cons] at hf; omega)

lemma help_delete_preserves_links (h : Heap) (n : Nat) (l1 l2 : List Nat) (fuel : Nat)
    (hlinks : links h (headId :: l1 ++ n :: l2 ++ [tailId]) = true)
    (hmk : ∀ i ∈ headId :: l1, (h i).nextMarked = false)
    (hne : ∀ i ∈ headId :: l1, i ≠ n)
    (hnt : ∀ i ∈ headId :: l1, i ≠ tailId)
    (hnd : (headId :: l1).Nodup)
    (hd2 : ∀ i ∈ headId :: l1, i ∉ l2)
    (hn2 : n ∉ l2) (hntl : n ≠ tailId)
    (hkeys : ∀ i ∈ l1, (h n).key ≤ (h i).key)
    (hfuel : l1.length + 2 ≤ fuel) :
    links (help_delete h n fuel).1 (headId :: l1 ++ l2 ++ [tailId]) = true ∧
    (help_delete h n fuel).2.2 = true := by
  have hsplit : links h ((headId :: l1) ++ n :: (l2 ++ [tailId])) = true := by
    simpa using hlinks
  rw [links_append, Bool.and_eq_true] at hsplit
  obtain ⟨P1, P2⟩ := hsplit
  obtain ⟨s, rest2, hsr⟩ : ∃ s rest2, l2 ++ [tailId] = s :: rest2 := by
    cases l2 with
    | nil => exact ⟨tailId, [], rfl⟩
    | cons x xs => exact ⟨x, xs ++ [tailId], rfl⟩
  rw [hsr] at P2
  have hnextn : (h n).next = some s := links_head h n s rest2 P2
  have hnh : headId ≠ n := hne headId (List.mem_cons_self _ _)
  have hhead : (h headId).next = some (l1.headD n) := by
    cases l1 with
    | nil => exact links_head h headId n [] (by simpa using P1)
    | cons t0 l1x => exact links_head h headId t0 _ (by simpa using P1)
  have hag1 : ∀ i, ((setNode h n ⟨(h n).key, some s, true⟩) i).next = (h i).next := by
    intro i
    by_cases hi : i = n
    · subst hi; rw [setNode_same]; exact hnextn.symm
    · rw [setNode_other _ _ hi]
  have hrh : readNextSimple (setNode h n ⟨(h n).key, some s, true⟩) headId
      = some (l1.headD n) := by
    rw [readNextSimple, setNode_other _ _ hnh, hmk headId (List.mem_cons_self _ _), hhead]
    simp
  simp only [help_delete, hnextn, hrh]
  set h1 := setNode h n ⟨(h n).key, some s, true⟩ with hh1def
  have hwalk : hdWalk h1 n headId (l1.headD n) fuel = (l1.getLastD headId, n) := by
    cases l1 with
    | nil =>
      simp only [List.headD, List.getLastD]
      exact hdWalk_at_node h1 n headId fuel (by omega)
    | cons t0 l1x =>
      simp only [List.headD]
      rw [List.getLastD_cons]
      apply hdWalk_finds h1 n l1x headId t0 fuel
      · apply links_congr h h1 _ (fun i _ => hag1 i)
        have hp1 : links h (headId :: t0 :: (l1x ++ [n])) = true := by simpa using P1
        exact links_tail h headId _ hp1
      · intro i hi
        rw [hh1def, setNode_other _ _ (hne i (List.mem_cons_of_mem headId hi))]
        exact hmk i (List.mem_cons_of_mem headId hi)
      · intro i hi
        exact hne i (List.mem_cons_of_mem headId hi)
      · intro i hi
        exact hnt i (List.mem_cons_of_mem headId hi)
      · intro i hi
        have hkn : (h1 n).key = (h n).key := by rw [hh1def, setNode_same]
        have hki : (h1 i).key = (h i).key := by
          rw [hh1def, setNode_other _ _ (hne i (List.mem_cons_of_mem headId hi))]
        rw [hkn, hki]
        exact hkeys i hi
      · simp only [List.length_cons] at hfuel
        omega
  rw [hwalk]
  rw [if_pos (rfl : ((l1.getLastD headId : Nat), n).2 = n)]
  dsimp only
  refine ⟨?_, rfl⟩
  set prev := l1.getLastD headId with hprevdef
  have hprev_mem : prev ∈ headId :: l1 := List.getLastD_mem_cons l1 headId
  have hpn : prev ≠ n := hne prev hprev_mem
  have hpt : prev ≠ tailId := hnt prev hprev_mem
  have hpl2 : prev ∉ l2 := hd2 prev hprev_mem
  set h3 := setNode (setNode h1 prev { h1 prev with next := some s }) n
    ⟨(h n).key, none, true⟩ with hh3def
  have h3prev : (h3 prev).next = some s := by
    rw [hh3def, setNode_other _ _ hpn, setNode_same]
  have h3other : ∀ i, i ≠ prev → i ≠ n → (h3 i).next = (h i).next := by
    intro i hip hin
    rw [hh3def, setNode_other _ _ hin, setNode_other _ _ hip]
    exact hag1 i
  rw [show headId :: l1 ++ l2 ++ [tailId] = (headId :: l1) ++ (l2 ++ [tailId]) by simp,
    hsr, links_append, Bool.and_eq_true]
  constructor
  · have hrt := links_retarget h h3 n s l1 headId (by simpa using P1) hnd
      (fun i hi hine => h3other i hine (hne i hi)) (by rw [← hprevdef]; exact h3prev)
    simpa using hrt
  · apply links_congr h h3
    · intro i hi
      have hi2 : i ∈ l2 ++ [tailId] := by rw [hsr]; exact hi
      rcases List.mem_append.mp hi2 with hil | hit
      · exact h3other i (fun he => hpl2 (he ▸ hil)) (fun he => hn2 (he ▸ hil))
      · have hit2 : i = tailId := by simpa using hit
        subst hit2
        exact h3other tailId (Ne.symm hpt) (fun he => hntl he.symm)
    · exact links_tail h n _ P2

lemma popT_snd_sorted {t : Int} {q : List Entry} (hq : sortedQ q) :
    sortedQ (popT t q).2 := by
  induction q with
  | nil => simpa [popT] using hq
  | cons e rest ih =>
    rw [sortedQ, List.pairwise_cons] at hq
    obtain ⟨he, hrest⟩ := hq
    by_cases ht : t > e.key
    · simp only [popT, if_pos ht]
      exact List.pairwise_cons.mpr ⟨he, hrest⟩
    · by_cases hc : e.claimed = true
      · simpa [popT, if_neg ht, if_pos hc] using ih hrest
      · simp only [popT, if_neg ht, if_neg hc]
        rw [sortedQ, List.pairwise_cons]
        exact ⟨fun b hb => he b hb, hrest⟩

lemma popT_mem_snd {t : Int} {q : List Entry} {b : Entry}
    (hb : b ∈ (popT t q).2) : ∃ a ∈ q, b.key = a.key := by
  induction q with
  | nil => simp [popT] at hb
  | cons e rest ih =>
    by_cases ht : t > e.key
    · simp only [popT, if_pos ht] at hb
      exact ⟨b, hb, rfl⟩
    · by_cases hc : e.claimed = true
      · simp only [popT, if_neg ht, if_pos hc] at hb
        obtain ⟨a, ha, hk⟩ := ih hb
        exact ⟨a, List.mem_cons_of_mem e ha, hk⟩
      · simp only [popT, if_neg ht, if_neg hc] at hb
        rcases List.mem_cons.mp hb with h | h
        · exact ⟨e, List.mem_cons_self e rest, by simp [h]⟩
        · exact ⟨b, List.mem_cons_of_mem e h, rfl⟩

lemma reach_sorted_bounded {lo hi : Int} {q : List Entry} (hr : ReachB lo hi q) :
    sortedQ q ∧ ∀ e ∈ q, lo ≤ e.key ∧ e.key ≤ hi := by
  induction hr with
  | init => exact ⟨by simp [sortedQ, emptyQ], by simp [emptyQ]⟩
  | insert k v hlo hhi hr ih =>
    obtain ⟨hs, hb⟩ := ih
    refine ⟨insertList_sorted hs, fun e he => ?_⟩
    rcases mem_insertList he with h | h
    · subst h; exact ⟨hlo, hhi⟩
    · exact hb e h
  | pop hr ih =>
    obtain ⟨hs, hb⟩ := ih
    refine ⟨popStep_snd_sorted hs, fun e he => ?_⟩
    obtain ⟨a, ha, hk⟩ := popStep_mem_snd he
    rw [hk]
    exact hb a ha
  | popThreshold t hr ih =>
    obtain ⟨hs, hb⟩ := ih
    refine ⟨popT_snd_sorted hs, fun e he => ?_⟩
    obtain ⟨a, ha, hk⟩ := popT_mem_snd he
    rw [hk]
    exact hb a ha

lemma chainKeys_pairwise {lo hi : Int} {q : List Entry} (hlh : lo ≤ hi)
    (hs : sortedQ q) (hb : ∀ e ∈ q, lo ≤ e.key ∧ e.key ≤ hi) :
    List.Pairwise (· ≥ ·) (chainKeys lo hi q) := by
  rw [chainKeys, List.pairwise_append]
  refine ⟨?_, by simp, ?_⟩
  · rw [List.pairwise_cons]
    constructor
    · intro x hx
      obtain ⟨e, he, rfl⟩ := List.mem_map.mp hx
      exact (hb e he).2
    · rw [List.pairwise_map]
      exact hs
  · intro x hx y hy
    have hy2 : y = lo := by simpa using hy
    subst hy2
    rcases List.mem_cons.mp hx with h | h
    · subst h; exact hlh
    · obtain ⟨e, he, rfl⟩ := List.mem_map.mp h
      exact (hb e he).1


/-! ## Claim theorems -/

/-- C2.  For every finite sequence of `insert( value, key )` calls by a
single thread followed by a single-threaded drain with `pop()`, the keys
of the returned payloads are weakly decreasing; in particular inserting
(A,3), (B,1), (C,5) (payloads 1, 2, 3) and draining yields C, A, B. -/
theorem drain_keys_weakly_decreasing (prog : List (Int × Nat)) (fuel : Nat) :
    List.Pairwise (· ≥ ·) ((drain fuel (insertAll prog)).map Entry.key) ∧
    (drain 4 (insertAll [(3, 1), (1, 2), (5, 3)])).map Entry.value = [3, 1, 2] := by
  constructor
  · rw [List.pairwise_map]
    exact drain_sorted (insertAll_sorted prog)
  · decide

/-- C3.  The walk of `insert` stops only when `key > cur->key` holds, so a
new entry with key `k` lands after every existing entry whose key is `≥ k`
(equal keys included) and before the rest; inserting (A,5) then (B,5)
(payloads 1, 2) and draining yields exactly A, B — no duplicates, no
nulls. -/
theorem insert_tie_break_after (k : Int) (v : Nat) (q : List Entry) :
    insertList k v q =
      q.takeWhile (fun e => decide (k ≤ e.key)) ++
        ⟨k, v, false⟩ :: q.dropWhile (fun e => decide (k ≤ e.key)) ∧
    insertAll [(5, 1), (5, 2)] = [⟨5, 1, false⟩, ⟨5, 2, false⟩] ∧
    (drain 3 (insertAll [(5, 1), (5, 2)])).map Entry.value = [1, 2] := by
  refine ⟨?_, by decide, by decide⟩
  induction q with
  | nil => simp [insertList]
  | cons e rest ih =>
    by_cases hk : k > e.key
    · have hd : decide (k ≤ e.key) = false := by simp [not_le.mpr hk]
      simp [insertList, if_pos hk, List.takeWhile_cons, List.dropWhile_cons, hd]
    · have hd : decide (k ≤ e.key) = true := by simp [not_lt.mp hk]
      simp only [insertList, if_neg hk, List.takeWhile_cons, List.dropWhile_cons, hd,
        if_true, List.cons_append]
      rw [ih]

/-- C6.  On a queue holding only the two sentinels, `pop()` returns empty,
`pop(t)` returns empty for every threshold `t`, repeated calls keep
returning empty, and no call mutates the state. -/
theorem pop_empty_idempotent :
    popStep emptyQ = (none, emptyQ) ∧
    (∀ t : Int, popT t emptyQ = (none, emptyQ)) ∧
    (∀ fuel : Nat, drain fuel emptyQ = []) := by
  refine ⟨rfl, fun t => rfl, fun fuel => ?_⟩
  cases fuel <;> rfl

/-- C1 counterexample.  After inserting a single payload (1) with key 10,
every live entry's key is `≤ 10`, yet `pop(10)` does not return empty:
the code's guard is `key > ret_node->key`, strict, so the candidate with
key equal to the threshold is claimed and returned. -/
theorem popT_threshold_equal_cex :
    (∀ e ∈ insertList 10 1 emptyQ, e.claimed = false → e.key ≤ 10) ∧
    (popT 10 (insertList 10 1 emptyQ)).1 ≠ none := by decide

/-- C1 (amended).  On a queue whose keys are weakly decreasing, `pop(t)`
returns empty iff every live (unclaimed) entry has key strictly below
`t`; in particular after inserting payload 1 with key 10, `pop(10)`
returns that payload and `pop(11)` returns empty. -/
theorem popT_none_iff_no_live_ge (t : Int) (q : List Entry) (hs : sortedQ q) :
    ((popT t q).1 = none ↔ ∀ e ∈ q, e.claimed = false → e.key < t) ∧
    (popT 10 (insertList 10 1 emptyQ)).1 = some ⟨10, 1, false⟩ ∧
    (popT 11 (insertList 10 1 emptyQ)).1 = none :=
  ⟨popT_none_iff_aux t q hs, by decide, by decide⟩

/-- Witness for the amended C1 theorem at a concrete sorted queue. -/
theorem popT_none_iff_no_live_ge_witness :
    sortedQ [⟨10, 1, false⟩] ∧
    ((popT 11 [(⟨10, 1, false⟩ : Entry)]).1 = none ↔
      ∀ e ∈ [(⟨10, 1, false⟩ : Entry)], e.claimed = false → e.key < 11) :=
  ⟨by simp [sortedQ], (popT_none_iff_no_live_ge 11 [⟨10, 1, false⟩] (by simp [sortedQ])).1⟩

/-- C4.  The source's `reserve( size )` runs
`for ( std::size_t i; i < size; ++i )` with `i` uninitialized, so the
number of nodes preallocated is `size - i0` for an indeterminate `i0`,
not deterministically `size`: with garbage `i0 = 1024` (or larger),
`reserve(1024)` adds zero nodes; only `i0 = 0` yields the documented
1024. -/
theorem reserve_uninitialized_counter_bug :
    (reserve 1024 1024 []).length = 0 ∧
    (reserve 2048 1024 []).length = 0 ∧
    (reserve 0 1024 []).length = 1024 := by
  refine ⟨?_, ?_, ?_⟩ <;>
    simp only [reserve, List.length_append, List.length_replicate,
      List.length_nil, Nat.sub_self, Nat.sub_zero, Nat.add_zero]

/-- C10.  `get_new_node( value, key )` returns a node with reference
count exactly 1 when the free list is empty (fresh allocation, counter
set by the constructor) and exactly 2 when the node is recycled from a
free list whose head node's count is 0 (`safe_read` raises it to 1, the
explicit increment to 2); `key` and `value` are set either way. -/
theorem get_new_node_counter_spec (v : Nat) (k : Int) (f : FNode)
    (rest : List FNode) (hf : f.counter = 0) :
    (get_new_node [] v k).1 = ⟨k, v, 1⟩ ∧
    (get_new_node (f :: rest) v k).1 = ⟨k, v, 2⟩ ∧
    (get_new_node (f :: rest) v k).2 = rest := by
  refine ⟨rfl, ?_, rfl⟩
  simp [get_new_node, hf]

/-- Witness for the C10 theorem at a concrete recycled node. -/
theorem get_new_node_counter_spec_witness :
    (get_new_node [] 7 3).1 = ⟨3, 7, 1⟩ ∧
    (get_new_node [⟨0, 0, 0⟩] 7 3).1 = ⟨3, 7, 2⟩ ∧
    (get_new_node [(⟨0, 0, 0⟩ : FNode)] 7 3).2 = [] :=
  get_new_node_counter_spec 7 3 ⟨0, 0, 0⟩ [] rfl


/-- C5.  The list invariant holds at every reachable state and across
`help_delete`: first, every state reachable from the empty queue by
`insert`/`pop` calls (keys within the sentinel domain) has weakly
decreasing keys along the whole list from the `head` sentinel (key `hi`)
to the `tail` sentinel (key `lo`); second, on a heap whose chain
`head :: l1 ++ n :: l2 ++ [tail]` is linked, `help_delete n` physically
unlinks `n` and leaves `tail` reachable from `head` along
`head :: l1 ++ l2 ++ [tail]`. -/
theorem list_invariant_preserved (lo hi : Int) (q : List Entry)
    (h : Heap) (n : Nat) (l1 l2 : List Nat) (fuel : Nat) :
    (lo ≤ hi → ReachB lo hi q → List.Pairwise (· ≥ ·) (chainKeys lo hi q)) ∧
    (links h (headId :: l1 ++ n :: l2 ++ [tailId]) = true →
      (∀ i ∈ headId :: l1, (h i).nextMarked = false) →
      (∀ i ∈ headId :: l1, i ≠ n) →
      (∀ i ∈ headId :: l1, i ≠ tailId) →
      (headId :: l1).Nodup →
      (∀ i ∈ headId :: l1, i ∉ l2) →
      n ∉ l2 → n ≠ tailId →
      (∀ i ∈ l1, (h n).key ≤ (h i).key) →
      l1.length + 2 ≤ fuel →
      links (help_delete h n fuel).1 (headId :: l1 ++ l2 ++ [tailId]) = true ∧
      (help_delete h n fuel).2.2 = true) := by
  constructor
  · intro hlh hr
    obtain ⟨hs, hb⟩ := reach_sorted_bounded hr
    exact chainKeys_pairwise hlh hs hb
  · intro a1 a2 a3 a4 a5 a6 a7 a8 a9 a10
    exact help_delete_preserves_links h n l1 l2 fuel a1 a2 a3 a4 a5 a6 a7 a8 a9 a10

/-- Witness for the C5 theorem: a concrete reachable queue and a concrete
three-node heap. -/
theorem list_invariant_preserved_witness :
    List.Pairwise (· ≥ ·) (chainKeys (-100) 100 (insertList 3 7 emptyQ)) ∧
    (links (help_delete markedChainHeap 2 2).1 [headId, tailId] = true ∧
      (help_delete markedChainHeap 2 2).2.2 = true) :=
  ⟨(list_invariant_preserved (-100) 100 (insertList 3 7 emptyQ)
        markedChainHeap 2 [] [] 2).1
      (by norm_num) (ReachB.insert 3 7 (by norm_num) (by norm_num) ReachB.init),
    (list_invariant_preserved (-100) 100 (insertList 3 7 emptyQ)
        markedChainHeap 2 [] [] 2).2
      (by decide) (by decide) (by decide) (by decide) (by decide) (by decide)
      (by decide) (by decide) (by decide) (by decide)⟩

/-- C7 counterexample.  `help_delete` is called on node 2, which is not in
the list (the list is only `head → tail`), so its own unlink
compare-exchange never runs and `assigned` stays false — yet `n->next` is
still overwritten with the marked-null sentinel `(Node*)1` (line 119 runs
unconditionally after the search loop). -/
theorem help_delete_sentinel_cex :
    (detachedHeap 2).next = some tailId ∧
    (detachedHeap 2).nextMarked = false ∧
    (help_delete detachedHeap 2 4).2.2 = false ∧
    ((help_delete detachedHeap 2 4).1 2).next = none ∧
    ((help_delete detachedHeap 2 4).1 2).nextMarked = true := by
  refine ⟨rfl, rfl, ?_, ?_, ?_⟩ <;> decide

/-- C7 (amended).  Whenever `help_delete( n )` reads a non-null unmarked
successor from `n->next` (the only case in which it proceeds past the
early return), it overwrites `n->next` with the marked-null sentinel
`(Node*)1` regardless of whether its own unlink compare-exchange
succeeded; only the null-successor early return leaves `n->next`
unchanged beyond installing the link mark. -/
theorem help_delete_sentinel_unconditional (h : Heap) (n succ c : Nat) (fuel : Nat)
    (hm : (h headId).nextMarked = false) (hc : (h headId).next = some c)
    (hne : n ≠ headId) (hsucc : (h n).next = some succ) :
    ((help_delete h n fuel).1 n).next = none ∧
    ((help_delete h n fuel).1 n).nextMarked = true := by
  have hrh : readNextSimple (setNode h n ⟨(h n).key, some succ, true⟩) headId = some c := by
    rw [readNextSimple, setNode_other _ _ (Ne.symm hne), hm, hc]
    simp
  simp only [help_delete, hsucc, hrh]
  set h1 := setNode h n ⟨(h n).key, some succ, true⟩ with hh1def
  set pt := hdWalk h1 n headId c fuel with hptdef
  by_cases hteq : pt.2 = n
  · rw [if_pos hteq]
    dsimp only
    rw [setNode_same]
    exact ⟨rfl, rfl⟩
  · rw [if_neg hteq]
    dsimp only
    rw [setNode_same]
    exact ⟨rfl, rfl⟩

/-- Witness for the amended C7 theorem at the concrete detached heap. -/
theorem help_delete_sentinel_unconditional_witness :
    (detachedHeap 2).next = some tailId ∧
    ((help_delete detachedHeap 2 4).1 2).next = none ∧
    ((help_delete detachedHeap 2 4).1 2).nextMarked = true :=
  ⟨rfl,
    help_delete_sentinel_unconditional detachedHeap 2 tailId tailId 4
      rfl rfl (by decide) rfl⟩

/-- C8.  On a heap whose `head` sentinel has an unmarked non-null link —
true of every queue state, and in particular whenever the tail sentinel
is reachable from a node `n` — `read_next( n )` returns a non-null node:
its loop only exits with a non-null `safe_read` result, so both `pop`
overloads return through their explicit `return` statements and the
fall-off-the-end path of `pop( K )` is unreachable. -/
theorem read_next_returns_nonnull (h : Heap) (n c : Nat) (rf fuel : Nat)
    (hm : (h headId).nextMarked = false) (hc : (h headId).next = some c)
    (_hreach : reachesTail h n rf = true) (hfuel : 2 ≤ fuel) :
    ((read_next h n fuel).2).isSome = true := by
  obtain ⟨f, rfl⟩ : ∃ f, fuel = f + 1 + 1 := ⟨fuel - 2, by omega⟩
  rw [read_next]
  rcases h0 : readNextSimple h n with _ | nxt
  · dsimp only
    have hne : n ≠ headId := by
      intro he
      rw [he, readNextSimple, hm, hc] at h0
      simp at h0
    obtain ⟨x, hx⟩ := help_delete_prev_readable h n c (f + 1) hm hc hne
    rw [read_next, hx]
    rfl
  · rfl

/-- Witness for the C8 theorem: `read_next` on the link-marked node 2 of a
concrete chain. -/
theorem read_next_returns_nonnull_witness :
    (markedChainHeap headId).nextMarked = false ∧
    (markedChainHeap headId).next = some 2 ∧
    reachesTail markedChainHeap 2 3 = true ∧
    ((read_next markedChainHeap 2 2).2).isSome = true :=
  ⟨rfl, rfl, by decide,
    read_next_returns_nonnull markedChainHeap 2 2 3 2 rfl rfl (by decide) (by decide)⟩

/-- C9.  For every even (2-byte aligned) pointer value `p` below
`2 ^ 64`: clearing the mark of `get_marked p` gives back `p`,
`get_marked p` tests as marked, `get_unmarked q` never tests as marked,
and `get_marked` and `get_unmarked` are idempotent. -/
theorem mark_primitives_algebra (p q : Nat) (heven : p % 2 = 0)
    (hlt : p < 2 ^ ptrWidth) :
    get_unmarked (get_marked p) = p ∧
    is_marked (get_marked p) = true ∧
    is_marked (get_unmarked q) = false ∧
    get_marked (get_marked p) = get_marked p ∧
    get_unmarked (get_unmarked q) = get_unmarked q := by
  refine ⟨?_, ?_, ?_, ?_, ?_⟩
  · apply Nat.eq_of_testBit_eq
    intro i
    rw [get_unmarked, get_marked, Nat.testBit_land, Nat.testBit_lor]
    cases i with
    | zero =>
      rw [mask_testBit_zero, Nat.testBit_zero]
      simp [heven]
    | succ j =>
      rw [mask_testBit_succ]
      have h1 : Nat.testBit 1 (j + 1) = false := by
        rw [Nat.testBit_succ]; norm_num
      rw [h1, Bool.or_false]
      by_cases hj : j < 63
      · simp [hj]
      · have h64 : p < 2 ^ (j + 1) :=
          lt_of_lt_of_le hlt
            (Nat.pow_le_pow_right (by norm_num) (by show 64 ≤ j + 1; omega))
        simp [hj, Nat.testBit_lt_two_pow h64]
  · rw [is_marked, get_marked]
    have hpar : (p ||| 1) % 2 = 1 := by
      have ht : (p ||| 1).testBit 0 = true := by
        rw [Nat.testBit_lor]
        simp
      rw [Nat.testBit_zero] at ht
      exact of_decide_eq_true ht
    rw [Nat.and_one_is_mod, hpar]
    rfl
  · rw [is_marked, get_unmarked, Nat.land_assoc]
    rw [show ((2 ^ ptrWidth - 1 - 1 : Nat) &&& 1) = 0 by decide, Nat.and_zero]
    rfl
  · rw [get_marked, get_marked, Nat.lor_assoc]
    rw [show ((1:Nat) ||| 1) = 1 by decide]
  · rw [get_unmarked, get_unmarked, Nat.land_assoc, Nat.and_self]

/-- Witness for the C9 theorem at `p = 4`, `q = 7`. -/
theorem mark_primitives_algebra_witness :
    4 % 2 = 0 ∧ 4 < 2 ^ ptrWidth ∧
    (get_unmarked (get_marked 4) = 4 ∧
      is_marked (get_marked 4) = true ∧
      is_marked (get_unmarked 7) = false ∧
      get_marked (get_marked 4) = get_marked 4 ∧
      get_unmarked (get_unmarked 7) = get_unmarked 7) :=
  ⟨by decide, by norm_num [ptrWidth], mark_primitives_algebra 4 7 (by decide) (by norm_num [ptrWidth])⟩

end LockfreePQ
